import Mathlib

/-!
Shallow embedding of the Week 3 notebook (bag-of-words ridge pipeline).

Texts are lists of characters, words are lists of characters.  Python
floats are modelled as rationals; Python `/` is modelled by `pyDiv`,
which raises (returns an error) exactly when the denominator is zero.
The ridge solver itself is an external library call; the selection loop
is therefore parametrised by the map from a regularization strength to
the validation (resp. training) error of the model fitted with it.
-/

abbrev Word := List Char

/-- Membership test against `string.punctuation`, i.e. the ASCII
characters with codes 33-47, 58-64, 91-96 and 123-126. -/
def isPunct (c : Char) : Bool :=
  (33 ≤ c.toNat && c.toNat ≤ 47) || (58 ≤ c.toNat && c.toNat ≤ 64) ||
  (91 ≤ c.toNat && c.toNat ≤ 96) || (123 ≤ c.toNat && c.toNat ≤ 126)

/-- The comprehension `''.join([c for c in t.lower() if not c in punctuation])`. -/
def cleanText (text : List Char) : List Char :=
  (text.map Char.toLower).filter (fun c => !isPunct c)

/-- Helper for `pySplit`: accumulates the current word (reversed) while
scanning; whitespace flushes it, and empty words are dropped, matching
Python `str.split()` with no argument. -/
def splitWsAux : List Char → List Char → List Word
  | cur, [] => if cur.isEmpty then [] else [cur.reverse]
  | cur, c :: cs =>
    if c.isWhitespace then
      if cur.isEmpty then splitWsAux [] cs else cur.reverse :: splitWsAux [] cs
    else splitWsAux (c :: cur) cs

/-- Python `r.split()`: split on whitespace runs, discarding empty pieces. -/
def pySplit (r : List Char) : List Word := splitWsAux [] r

/-- The token stream the notebook derives from a record's `text` field:
lowercase, strip punctuation, whitespace split. -/
def tokenize (text : List Char) : List Word := pySplit (cleanText text)

/-- The value `wordCount[w]` after the counting loop over the corpus:
the number of occurrences of `w` in the corpus token stream. -/
def wordCount (tokens : List Word) (w : Word) : ℕ := tokens.count w

/-- The list `[(wordCount[w], w) for w in wordCount]`.  Python dict keys
enumerate the distinct tokens; the enumeration order is irrelevant here
because the list is sorted next by the strict total key order. -/
def countPairs (tokens : List Word) : List (ℕ × Word) :=
  tokens.dedup.map (fun w => (wordCount tokens w, w))

/-- Python string `<=`: lexicographic comparison by character code. -/
def wordLe : Word → Word → Bool
  | [], _ => true
  | _ :: _, [] => false
  | a :: as, b :: bs => if a < b then true else if b < a then false else wordLe as bs

/-- Python tuple comparison `(c1, w1) <= (c2, w2)`: by count, then by word. -/
def pairLe (p q : ℕ × Word) : Prop :=
  p.1 < q.1 ∨ (p.1 = q.1 ∧ wordLe p.2 q.2 = true)

instance : DecidableRel pairLe := fun p q => by
  unfold pairLe; infer_instance

/-- The cell `counts.sort(); counts.reverse()`: ascending sort by the
tuple order, then reversed, so the highest count sits at index 0.
The key order is total and antisymmetric on the pairs (their words are
distinct), so the sorted list is the unique sorted permutation and any
sorting algorithm models Python's sort faithfully. -/
def sortedCounts (tokens : List Word) : List (ℕ × Word) :=
  (List.insertionSort pairLe (countPairs tokens)).reverse

/-- The cell `words = [x[1] for x in counts[:1000]]`. -/
def buildWords (tokens : List Word) : List Word :=
  ((sortedCounts tokens).take 1000).map Prod.snd

/-- Lookup in `wordId = dict(zip(words, range(len(words))))`, scanning
with an offset; on duplicate keys the later insertion wins, as in a
Python dict. -/
def wordIdAux (w : Word) : List Word → ℕ → Option ℕ
  | [], _ => none
  | v :: vs, k =>
    match wordIdAux w vs (k + 1) with
    | some j => some j
    | none => if w = v then some k else none

/-- The mapping `wordId[w]`, i.e. the position of `w` in `words`. -/
def wordId (ws : List Word) (w : Word) : Option ℕ := wordIdAux w ws 0

/-- One iteration of the loop in Part 3's `feature`:
`if w in words: feat[wordId[w]] += 1`.  The `none` branch is
unreachable because `w ∈ ws` guarantees `wordId` succeeds. -/
def featStep (ws : List Word) (feat : List ℕ) (w : Word) : List ℕ :=
  if w ∈ ws then
    match wordId ws w with
    | some i => feat.set i (feat.getD i 0 + 1)
    | none => feat
  else feat

/-- Part 3's `feature(datum)`: start from `[0]*len(words)`, bump the
slot of each in-vocabulary token, then `feat.append(1)` for the offset. -/
def feature (ws : List Word) (text : List Char) : List ℕ :=
  (tokenize text).foldl (featStep ws) (List.replicate ws.length 0) ++ [1]

/-- One iteration of the loop in Part 1's `feature`, whose membership
test is `if w in wordSet` with `wordSet = set(words)`. -/
def featStep1 (ws : List Word) (feat : List ℕ) (w : Word) : List ℕ :=
  if w ∈ ws.toFinset then
    match wordId ws w with
    | some i => feat.set i (feat.getD i 0 + 1)
    | none => feat
  else feat

/-- Part 1's `feature(datum)`: identical to Part 3's except that the
membership test runs against the set rather than the list. -/
def feature_part1 (ws : List Word) (text : List Char) : List ℕ :=
  (tokenize text).foldl (featStep1 ws) (List.replicate ws.length 0) ++ [1]

/-- Python `/` (true division): raises `ZeroDivisionError` when the
denominator is zero, otherwise divides. -/
def pyDiv (a b : ℚ) : Except String ℚ :=
  if b = 0 then Except.error "ZeroDivisionError" else Except.ok (a / b)

/-- The notebook's `MSE(model, X, y)`: predictions over `X`, squared
differences zipped with `y`, then `sum(differences) / len(differences)`.
The model argument is its `predict` method. -/
def MSE {α : Type} (predict : α → ℚ) (X : List α) (y : List ℚ) : Except String ℚ :=
  let differences := ((X.map predict).zip y).map (fun p => (p.1 - p.2) ^ 2)
  pyDiv differences.sum (differences.length : ℚ)

/-- The two mutable variables of cell 56, `bestModel = None` and
`bestMSE = None`.  A fitted model is identified by its regularization
strength, since fitting is deterministic in the fixed training data. -/
structure SelState where
  bestModel : Option ℚ
  bestMSE : Option ℚ
deriving DecidableEq, Repr

/-- One iteration of cell 57's loop:
`if not bestModel or mseValid < bestMSE: bestModel = model; bestMSE = mseValid`.
A fitted `Ridge` object is truthy, so `not bestModel` holds exactly when
`bestModel` is still `None`.  The third branch (a model without a recorded
error) never arises from the initial state; Python would raise a
`TypeError` comparing a float with `None`, and we leave the state alone. -/
def selectStep (mseValidOf : ℚ → ℚ) (s : SelState) (lamb : ℚ) : SelState :=
  let mseValid := mseValidOf lamb
  match s.bestModel, s.bestMSE with
  | none, _ => ⟨some lamb, some mseValid⟩
  | some bm, some bMSE =>
    if mseValid < bMSE then ⟨some lamb, some mseValid⟩ else ⟨some bm, some bMSE⟩
  | some bm, none => ⟨some bm, none⟩

/-- Cell 57's loop over the candidate strengths, from the initial
`None`/`None` state. -/
def selectLoop (mseValidOf : ℚ → ℚ) (cands : List ℚ) : SelState :=
  cands.foldl (selectStep mseValidOf) ⟨none, none⟩

/-- The candidate list `[0.01, 0.1, 1, 10, 100]`. -/
def lambdas : List ℚ := [1/100, 1/10, 1, 10, 100]

/-- Cell 51's three contiguous slices of a list, with `N = len(X)`:
`xs[:N//2]`, `xs[N//2:3*N//4]`, `xs[3*N//4:]`. -/
def splitThree {α : Type} (N : ℕ) (xs : List α) : List α × List α × List α :=
  (xs.take (N / 2), (xs.take (3 * N / 4)).drop (N / 2), xs.drop (3 * N / 4))

/-- A tag for which of the three partitions a pipeline step reads. -/
inductive Part3Slice
  | train
  | valid
  | test
deriving DecidableEq, BEq, Repr

/-- The partitions read by one iteration of cell 57's loop, in program
order: `model.fit(X_train, y_train)`, then `MSE(model, X_train, y_train)`,
then `MSE(model, X_valid, y_valid)`. -/
def iterReads : List Part3Slice := [.train, .train, .valid]

/-- The partition reads of the whole candidate loop. -/
def loopReads : List Part3Slice := lambdas.flatMap (fun _ => iterReads)

/-- The partition reads of the whole pipeline: the candidate loop,
then the single `MSE(bestModel, X_test, y_test)` of cell 59. -/
def pipelineReads : List Part3Slice := loopReads ++ [.test]

/-! ### Theorems -/

/-- C3: the test partition is read exactly once across the whole
pipeline, every read inside the candidate-evaluation loop touches only
the train or validation partition, and the single test read comes after
the entire loop, i.e. after selection is finalized. -/
theorem C3_test_read_once_after_selection :
    pipelineReads.count Part3Slice.test = 1 ∧
    loopReads.count Part3Slice.test = 0 ∧
    pipelineReads = loopReads ++ [Part3Slice.test] ∧
    pipelineReads.getLast? = some Part3Slice.test := by
  refine ⟨by decide, by decide, rfl, by decide⟩

/-- C7: on an empty candidate list the loop body never runs and both
`bestModel` and `bestMSE` are still `None` afterwards. -/
theorem C7_empty_candidates_select_nothing (f : ℚ → ℚ) :
    (selectLoop f []).bestModel = none ∧ (selectLoop f []).bestMSE = none :=
  ⟨rfl, rfl⟩

/-- C8: `MSE` on an empty feature list and empty target list reaches the
division with `len(differences) = 0` and raises `ZeroDivisionError`;
there is no guard before the division. -/
theorem C8_mse_empty_divides_by_zero (predict : List ℕ → ℚ) :
    MSE predict [] [] = Except.error "ZeroDivisionError" := by
  simp [MSE, pyDiv]

/-- Squared differences of a list zipped with itself sum to zero. -/
theorem zip_self_sq_sum (l : List ℚ) :
    ((l.zip l).map (fun p => (p.1 - p.2) ^ 2)).sum = 0 := by
  induction l with
  | nil => simp
  | cons a t ih => simp [ih]

/-- C6: on a non-empty input whose predictions agree element-wise with
the targets, `MSE` returns exactly 0. -/
theorem C6_mse_identical_is_zero {α : Type} (predict : α → ℚ) (X : List α)
    (y : List ℚ) (h : X.map predict = y) (hne : X ≠ []) :
    MSE predict X y = Except.ok 0 := by
  subst h
  have hlen : (((X.map predict).zip (X.map predict)).map
      (fun p => (p.1 - p.2) ^ 2)).length = X.length := by
    simp
  have hX : X.length ≠ 0 := fun h0 => hne (List.length_eq_zero.mp h0)
  simp only [MSE]
  rw [zip_self_sq_sum, hlen]
  unfold pyDiv
  rw [if_neg (by exact_mod_cast hX)]
  simp

/-- Witness for C6 at `predict = id`, `X = y = [1]`. -/
theorem C6_mse_identical_is_zero_witness :
    MSE (fun x => x) [(1 : ℚ)] [1] = Except.ok 0 :=
  C6_mse_identical_is_zero (fun x => x) [(1 : ℚ)] [1] rfl (by decide)

/-- The slice lengths cell 51 produces on one list of length `N`. -/
theorem splitThree_lengths {α : Type} (xs : List α) (N : ℕ) (h : xs.length = N) :
    (splitThree N xs).1.length = N / 2 ∧
    (splitThree N xs).2.1.length = 3 * N / 4 - N / 2 ∧
    (splitThree N xs).2.2.length = N - 3 * N / 4 := by
  subst h
  have h1 : (xs.take (xs.length / 2)).length = xs.length / 2 := by
    simp only [List.length_take]
    omega
  have h2 : ((xs.take (3 * xs.length / 4)).drop (xs.length / 2)).length =
      3 * xs.length / 4 - xs.length / 2 := by
    simp only [List.length_drop, List.length_take]
    omega
  have h3 : (xs.drop (3 * xs.length / 4)).length = xs.length - 3 * xs.length / 4 := by
    simp only [List.length_drop]
  exact ⟨h1, h2, h3⟩

/-- C2: splitting the feature list and the label list of a dataset of
`N` records yields three contiguous slices of sizes `N//2`,
`3*N//4 - N//2` and `N - 3*N//4`, and the three sizes sum to `N`. -/
theorem C2_split_sizes {α β : Type} (X : List α) (y : List β)
    (h : y.length = X.length) :
    (splitThree X.length X).1.length = X.length / 2 ∧
    (splitThree X.length X).2.1.length = 3 * X.length / 4 - X.length / 2 ∧
    (splitThree X.length X).2.2.length = X.length - 3 * X.length / 4 ∧
    (splitThree X.length y).1.length = X.length / 2 ∧
    (splitThree X.length y).2.1.length = 3 * X.length / 4 - X.length / 2 ∧
    (splitThree X.length y).2.2.length = X.length - 3 * X.length / 4 ∧
    (splitThree X.length X).1.length + (splitThree X.length X).2.1.length +
      (splitThree X.length X).2.2.length = X.length := by
  obtain ⟨h1, h2, h3⟩ := splitThree_lengths X X.length rfl
  obtain ⟨h4, h5, h6⟩ := splitThree_lengths y X.length h
  refine ⟨h1, h2, h3, h4, h5, h6, ?_⟩
  rw [h1, h2, h3]
  omega

/-- Witness for C2 on a five-record dataset. -/
theorem C2_split_sizes_witness :
    (splitThree (List.length [10, 20, 30, 40, 50]) [10, 20, 30, 40, 50]).1.length =
        List.length [10, 20, 30, 40, 50] / 2 ∧
    (splitThree (List.length [10, 20, 30, 40, 50]) [10, 20, 30, 40, 50]).2.1.length =
        3 * List.length [10, 20, 30, 40, 50] / 4 - List.length [10, 20, 30, 40, 50] / 2 ∧
    (splitThree (List.length [10, 20, 30, 40, 50]) [10, 20, 30, 40, 50]).2.2.length =
        List.length [10, 20, 30, 40, 50] - 3 * List.length [10, 20, 30, 40, 50] / 4 ∧
    (splitThree (List.length [10, 20, 30, 40, 50]) [true, false, true, false, true]).1.length =
        List.length [10, 20, 30, 40, 50] / 2 ∧
    (splitThree (List.length [10, 20, 30, 40, 50]) [true, false, true, false, true]).2.1.length =
        3 * List.length [10, 20, 30, 40, 50] / 4 - List.length [10, 20, 30, 40, 50] / 2 ∧
    (splitThree (List.length [10, 20, 30, 40, 50]) [true, false, true, false, true]).2.2.length =
        List.length [10, 20, 30, 40, 50] - 3 * List.length [10, 20, 30, 40, 50] / 4 ∧
    (splitThree (List.length [10, 20, 30, 40, 50]) [10, 20, 30, 40, 50]).1.length +
      (splitThree (List.length [10, 20, 30, 40, 50]) [10, 20, 30, 40, 50]).2.1.length +
      (splitThree (List.length [10, 20, 30, 40, 50]) [10, 20, 30, 40, 50]).2.2.length =
        List.length [10, 20, 30, 40, 50] :=
  C2_split_sizes [10, 20, 30, 40, 50] [true, false, true, false, true] rfl

/-- C9: one iteration of the selection loop either leaves `bestModel`
and `bestMSE` both unchanged or updates both together in the same step;
a recorded `bestMSE` never increases, and whenever it changes it
strictly decreases; the two fields are `None` together or set together.
The loop's state is exactly these two variables. -/
theorem C9_selection_state_monotone (f : ℚ → ℚ) (s : SelState) (lamb : ℚ)
    (hinv : s.bestModel = none ↔ s.bestMSE = none) :
    (((selectStep f s lamb).bestModel = s.bestModel ∧
        (selectStep f s lamb).bestMSE = s.bestMSE) ∨
      ((selectStep f s lamb).bestModel = some lamb ∧
        (selectStep f s lamb).bestMSE = some (f lamb))) ∧
    (∀ m m', s.bestMSE = some m → (selectStep f s lamb).bestMSE = some m' → m' ≤ m) ∧
    ((selectStep f s lamb).bestMSE ≠ s.bestMSE →
      ∀ m m', s.bestMSE = some m → (selectStep f s lamb).bestMSE = some m' → m' < m) ∧
    ((selectStep f s lamb).bestModel = none ↔ (selectStep f s lamb).bestMSE = none) := by
  obtain ⟨mo, me⟩ := s
  cases mo with
  | none =>
    have hme : me = none := hinv.mp rfl
    subst hme
    have ht : selectStep f ⟨none, none⟩ lamb = ⟨some lamb, some (f lamb)⟩ := rfl
    rw [ht]
    refine ⟨Or.inr ⟨rfl, rfl⟩, ?_, ?_, by simp⟩
    · intro m m' hm _
      simp at hm
    · intro _ m m' hm _
      simp at hm
  | some bm =>
    cases me with
    | none =>
      have hbad : (some bm : Option ℚ) = none := hinv.mpr rfl
      simp at hbad
    | some bMSE =>
      have ht : selectStep f ⟨some bm, some bMSE⟩ lamb =
          if f lamb < bMSE then ⟨some lamb, some (f lamb)⟩
          else ⟨some bm, some bMSE⟩ := rfl
      rw [ht]
      by_cases hc : f lamb < bMSE
      · rw [if_pos hc]
        refine ⟨Or.inr ⟨rfl, rfl⟩, ?_, ?_, by simp⟩
        · intro m m' hm hm'
          obtain rfl := Option.some.inj hm
          obtain rfl := Option.some.inj hm'
          exact le_of_lt hc
        · intro _ m m' hm hm'
          obtain rfl := Option.some.inj hm
          obtain rfl := Option.some.inj hm'
          exact hc
      · rw [if_neg hc]
        refine ⟨Or.inl ⟨rfl, rfl⟩, ?_, ?_, by simp⟩
        · intro m m' hm hm'
          obtain rfl := Option.some.inj hm
          obtain rfl := Option.some.inj hm'
          exact le_refl _
        · intro hne
          exact absurd rfl hne

/-- Witness for C9 at the initial state and the first candidate. -/
theorem C9_selection_state_monotone_witness :
    (((selectStep (fun x => x) ⟨none, none⟩ 1).bestModel =
          (⟨none, none⟩ : SelState).bestModel ∧
        (selectStep (fun x => x) ⟨none, none⟩ 1).bestMSE =
          (⟨none, none⟩ : SelState).bestMSE) ∨
      ((selectStep (fun x => x) ⟨none, none⟩ 1).bestModel = some 1 ∧
        (selectStep (fun x => x) ⟨none, none⟩ 1).bestMSE = some ((fun x => x) 1))) ∧
    (∀ m m', (⟨none, none⟩ : SelState).bestMSE = some m →
      (selectStep (fun x => x) ⟨none, none⟩ 1).bestMSE = some m' → m' ≤ m) ∧
    ((selectStep (fun x => x) ⟨none, none⟩ 1).bestMSE ≠
        (⟨none, none⟩ : SelState).bestMSE →
      ∀ m m', (⟨none, none⟩ : SelState).bestMSE = some m →
        (selectStep (fun x => x) ⟨none, none⟩ 1).bestMSE = some m' → m' < m) ∧
    ((selectStep (fun x => x) ⟨none, none⟩ 1).bestModel = none ↔
      (selectStep (fun x => x) ⟨none, none⟩ 1).bestMSE = none) :=
  C9_selection_state_monotone (fun x => x) ⟨none, none⟩ 1 Iff.rfl

/-- Running cell 57's loop from a state that already holds candidate
`bl` with its recorded error `f bl`: the final state holds the first
candidate of `bl :: cs` attaining the minimal validation error. -/
theorem selectLoop_go (f : ℚ → ℚ) :
    ∀ (cs : List ℚ) (bl bm : ℚ), bm = f bl →
    ∃ l m, List.foldl (selectStep f) ⟨some bl, some bm⟩ cs = ⟨some l, some m⟩ ∧
      m = f l ∧ m ≤ bm ∧ (∀ c ∈ cs, m ≤ f c) ∧
      ∃ pre post, bl :: cs = pre ++ l :: post ∧ ∀ c ∈ pre, m < f c := by
  intro cs
  induction cs with
  | nil =>
    intro bl bm hbm
    exact ⟨bl, bm, rfl, hbm, le_refl bm, by simp, [], [], rfl, by simp⟩
  | cons c cs ih =>
    intro bl bm hbm
    have hfold : List.foldl (selectStep f) ⟨some bl, some bm⟩ (c :: cs) =
        List.foldl (selectStep f)
          (if f c < bm then ⟨some c, some (f c)⟩ else ⟨some bl, some bm⟩) cs := rfl
    by_cases hc : f c < bm
    · rw [hfold, if_pos hc]
      obtain ⟨l, m, h1, h2, h3, h4, pre, post, h5, h6⟩ := ih c (f c) rfl
      have hmbl : m < f bl := by
        rw [hbm] at hc
        exact lt_of_le_of_lt h3 hc
      refine ⟨l, m, h1, h2, ?_, ?_, bl :: pre, post, ?_, ?_⟩
      · rw [hbm]
        exact le_of_lt hmbl
      · intro x hx
        rcases List.mem_cons.mp hx with rfl | hx
        · exact h3
        · exact h4 x hx
      · rw [List.cons_append, ← h5]
      · intro x hx
        rcases List.mem_cons.mp hx with rfl | hx
        · exact hmbl
        · exact h6 x hx
    · rw [hfold, if_neg hc]
      push_neg at hc
      obtain ⟨l, m, h1, h2, h3, h4, pre, post, h5, h6⟩ := ih bl bm hbm
      refine ⟨l, m, h1, h2, h3, ?_, ?_⟩
      · intro x hx
        rcases List.mem_cons.mp hx with rfl | hx
        · exact le_trans h3 hc
        · exact h4 x hx
      · cases pre with
        | nil =>
          simp only [List.nil_append] at h5
          injection h5 with ha hb
          subst ha
          subst hb
          exact ⟨[], c :: cs, rfl, by simp⟩
        | cons p pre2 =>
          rw [List.cons_append] at h5
          injection h5 with ha hb
          subst ha
          have hmbl : m < f bl := h6 bl (List.mem_cons_self _ _)
          have hmbm : m < bm := by
            rw [hbm]
            exact hmbl
          refine ⟨bl :: c :: pre2, post, ?_, ?_⟩
          · rw [hb]
            simp
          · intro x hx
            rcases List.mem_cons.mp hx with rfl | hx
            · exact hmbl
            rcases List.mem_cons.mp hx with rfl | hx
            · exact lt_of_lt_of_le hmbm hc
            · exact h6 x (List.mem_cons_of_mem _ hx)

/-- C1: for every assignment of validation errors to the candidates,
the loop over `[0.01, 0.1, 1, 10, 100]` ends holding a selected model
and its recorded error: the recorded error is that candidate's
validation error, it is minimal over all candidates, and every
candidate before the winner has strictly larger validation error, so
the first candidate attaining the minimum wins ties. -/
theorem C1_selector_first_minimum (f : ℚ → ℚ) :
    ∃ l m, selectLoop f lambdas = ⟨some l, some m⟩ ∧ m = f l ∧
      (∀ c ∈ lambdas, m ≤ f c) ∧
      ∃ pre post, lambdas = pre ++ l :: post ∧ ∀ c ∈ pre, m < f c := by
  obtain ⟨l, m, h1, h2, h3, h4, pre, post, h5, h6⟩ :=
    selectLoop_go f [1/10, 1, 10, 100] (1/100) (f (1/100)) rfl
  have hinit : selectLoop f lambdas =
      List.foldl (selectStep f) ⟨some (1/100), some (f (1/100))⟩
        [1/10, 1, 10, 100] := rfl
  refine ⟨l, m, hinit.trans h1, h2, ?_, pre, post, h5, h6⟩
  intro c hc
  simp only [lambdas] at hc
  rcases List.mem_cons.mp hc with rfl | hc
  · exact h3
  · exact h4 c hc

/-- C10: Part 1's encoder (membership test against `wordSet = set(words)`)
and Part 3's encoder (membership test against the list `words`) return
identical feature vectors on every record for the same vocabulary. -/
theorem C10_feature_encoders_agree (ws : List Word) (text : List Char) :
    feature_part1 ws text = feature ws text := by
  have hstep : featStep1 ws = featStep ws := by
    funext feat w
    simp only [featStep1, featStep, List.mem_toFinset]
  simp only [feature_part1, feature, hstep]

/-- A key absent from `words` is absent from the dict. -/
theorem wordIdAux_eq_none (w : Word) :
    ∀ (vs : List Word) (k : ℕ), w ∉ vs → wordIdAux w vs k = none := by
  intro vs
  induction vs with
  | nil => intro k _; rfl
  | cons v vs ih =>
    intro k hw
    have hv : w ≠ v := fun h => hw (h ▸ List.mem_cons_self v vs)
    have hvs : w ∉ vs := fun h => hw (List.mem_cons_of_mem v h)
    simp only [wordIdAux, ih (k + 1) hvs, if_neg hv]

/-- On a duplicate-free vocabulary the dict sends the word at position
`i` to `k + i`, where `k` is the scanning offset. -/
theorem wordIdAux_getElem (vs : List Word) (hnd : vs.Nodup) :
    ∀ (i k : ℕ) (hi : i < vs.length), wordIdAux vs[i] vs k = some (k + i) := by
  induction vs with
  | nil => intro i k hi; exact absurd hi (by simp)
  | cons v vs ih =>
    intro i k hi
    cases i with
    | zero =>
      have hv : v ∉ vs := (List.nodup_cons.mp hnd).1
      simp only [List.getElem_cons_zero, wordIdAux,
        wordIdAux_eq_none v vs (k + 1) hv]
      simp
    | succ i =>
      have hi' : i < vs.length := by
        simpa using Nat.lt_of_succ_lt_succ hi
      have := ih (List.nodup_cons.mp hnd).2 i (k + 1) hi'
      simp only [List.getElem_cons_succ, wordIdAux, this]
      congr 1
      omega

/-- On a duplicate-free vocabulary `wordId` is the position mapping. -/
theorem wordId_getElem (ws : List Word) (hnd : ws.Nodup) (i : ℕ)
    (hi : i < ws.length) : wordId ws ws[i] = some i := by
  simpa using wordIdAux_getElem ws hnd i 0 hi

/-- One `feature` loop iteration does not change the vector's length. -/
theorem featStep_length (ws : List Word) (feat : List ℕ) (t : Word) :
    (featStep ws feat t).length = feat.length := by
  unfold featStep
  by_cases h : t ∈ ws
  · rw [if_pos h]
    rcases hw : wordId ws t with _ | i
    · rfl
    · simp [List.length_set]
  · rw [if_neg h]

/-- The `feature` loop does not change the vector's length. -/
theorem foldl_featStep_length (ws : List Word) :
    ∀ (tokens : List Word) (feat : List ℕ),
      (tokens.foldl (featStep ws) feat).length = feat.length := by
  intro tokens
  induction tokens with
  | nil => intro feat; rfl
  | cons t ts ih =>
    intro feat
    rw [List.foldl_cons, ih, featStep_length]

/-- One `feature` loop iteration bumps exactly the slot of the token's
vocabulary position (when the token is in the vocabulary) and leaves
every other slot alone. -/
theorem featStep_getD (ws : List Word) (hnd : ws.Nodup) (feat : List ℕ)
    (hlen : feat.length = ws.length) (t : Word) (i : ℕ) (hi : i < ws.length) :
    (featStep ws feat t).getD i 0 =
      feat.getD i 0 + (if t = ws.getD i [] then 1 else 0) := by
  have hgi : ws.getD i [] = ws[i] := List.getD_eq_getElem ws [] hi
  by_cases h : t ∈ ws
  · obtain ⟨j, hj, hjt⟩ := List.mem_iff_getElem.mp h
    have hid : wordId ws t = some j := hjt ▸ wordId_getElem ws hnd j hj
    have hfs : featStep ws feat t = feat.set j (feat.getD j 0 + 1) := by
      unfold featStep
      rw [if_pos h, hid]
    rw [hfs]
    by_cases hij : i = j
    · subst hij
      have hteq : t = ws.getD i [] := by rw [hgi, hjt]
      rw [if_pos hteq]
      rw [List.getD_eq_getElem?_getD, List.getElem?_set]
      simp [hlen ▸ hi]
    · have htne : t ≠ ws.getD i [] := by
        rw [hgi, ← hjt]
        intro hcontra
        exact hij (hnd.getElem_inj_iff.mp hcontra).symm
      rw [if_neg htne]
      rw [List.getD_eq_getElem?_getD, List.getD_eq_getElem?_getD,
        List.getElem?_set, if_neg (fun hji => hij hji.symm)]
      simp
  · have hne : t ≠ ws.getD i [] := by
      rw [hgi]
      intro hcontra
      exact h (hcontra ▸ List.getElem_mem hi)
    unfold featStep
    rw [if_neg h, if_neg hne]
    simp

/-- Running the `feature` loop adds, at each vocabulary position, the
number of tokens equal to the word at that position. -/
theorem foldl_featStep_getD (ws : List Word) (hnd : ws.Nodup) :
    ∀ (tokens : List Word) (feat : List ℕ), feat.length = ws.length →
      ∀ i, i < ws.length →
        (tokens.foldl (featStep ws) feat).getD i 0 =
          feat.getD i 0 + tokens.count (ws.getD i []) := by
  intro tokens
  induction tokens with
  | nil => intro feat _ i _; simp
  | cons t ts ih =>
    intro feat hlen i hi
    rw [List.foldl_cons]
    rw [ih (featStep ws feat t) ((featStep_length ws feat t).trans hlen) i hi]
    rw [featStep_getD ws hnd feat hlen t i hi, List.count_cons]
    by_cases ht : t = ws.getD i []
    · rw [if_pos ht, if_pos (beq_iff_eq.mpr ht)]
      omega
    · rw [if_neg ht, if_neg (by simpa using ht)]
      omega

/-- C4: on a duplicate-free vocabulary of size `K`, every feature
vector has length `K + 1`, its last entry is the constant `1` whatever
the record's text, and entry `i < K` is the number of occurrences of
vocabulary token `i` in the record's lowercased, punctuation-stripped,
whitespace-split text. -/
theorem C4_feature_vector_shape (ws : List Word) (hnd : ws.Nodup)
    (text : List Char) :
    (feature ws text).length = ws.length + 1 ∧
    (feature ws text).getLast? = some 1 ∧
    ∀ i, i < ws.length →
      (feature ws text).getD i 0 = (tokenize text).count (ws.getD i []) := by
  refine ⟨?_, ?_, ?_⟩
  · unfold feature
    rw [List.length_append, foldl_featStep_length, List.length_replicate]
    rfl
  · exact List.getLast?_concat _
  · intro i hi
    unfold feature
    have hAlen : ((tokenize text).foldl (featStep ws)
        (List.replicate ws.length 0)).length = ws.length := by
      rw [foldl_featStep_length, List.length_replicate]
    rw [List.getD_eq_getElem?_getD,
      List.getElem?_append_left (by rw [hAlen]; exact hi),
      ← List.getD_eq_getElem?_getD]
    rw [foldl_featStep_getD ws hnd (tokenize text)
      (List.replicate ws.length 0) (List.length_replicate _ _) i hi]
    rw [List.getD_eq_getElem?_getD, List.getElem?_replicate, if_pos hi]
    simp

/-- Witness for C4 on the vocabulary `["a", "b"]` and the text `"a b a"`. -/
theorem C4_feature_vector_shape_witness :
    ([['a'], ['b']] : List Word).Nodup ∧
    ((feature [['a'], ['b']] ['a', ' ', 'b', ' ', 'a']).length =
        ([['a'], ['b']] : List Word).length + 1 ∧
      (feature [['a'], ['b']] ['a', ' ', 'b', ' ', 'a']).getLast? = some 1 ∧
      ∀ i, i < ([['a'], ['b']] : List Word).length →
        (feature [['a'], ['b']] ['a', ' ', 'b', ' ', 'a']).getD i 0 =
          (tokenize ['a', ' ', 'b', ' ', 'a']).count
            (([['a'], ['b']] : List Word).getD i [])) :=
  ⟨by decide, C4_feature_vector_shape [['a'], ['b']] (by decide)
    ['a', ' ', 'b', ' ', 'a']⟩

/-- Python string comparison is total. -/
theorem wordLe_total : ∀ (a b : Word), wordLe a b = true ∨ wordLe b a = true := by
  intro a
  induction a with
  | nil => intro b; exact Or.inl rfl
  | cons x xs ih =>
    intro b
    cases b with
    | nil => exact Or.inr rfl
    | cons y ys =>
      rcases lt_trichotomy x y with hxy | hxy | hxy
      · left
        simp only [wordLe, if_pos hxy]
      · subst hxy
        rcases ih ys with h | h
        · left
          simp only [wordLe, if_neg (lt_irrefl x), h]
        · right
          simp only [wordLe, if_neg (lt_irrefl x), h]
      · right
        simp only [wordLe, if_pos hxy]

/-- Python string comparison is transitive. -/
theorem wordLe_trans :
    ∀ (a b c : Word), wordLe a b = true → wordLe b c = true → wordLe a c = true := by
  intro a
  induction a with
  | nil => intro b c _ _; rfl
  | cons x xs ih =>
    intro b c h1 h2
    cases b with
    | nil => simp [wordLe] at h1
    | cons y ys =>
      cases c with
      | nil => simp [wordLe] at h2
      | cons z zs =>
        simp only [wordLe] at h1 h2 ⊢
        rcases lt_trichotomy x y with hxy | hxy | hxy
        · rcases lt_trichotomy y z with hyz | hyz | hyz
          · rw [if_pos (lt_trans hxy hyz)]
          · subst hyz
            rw [if_pos hxy]
          · rw [if_neg (lt_asymm hyz), if_pos hyz] at h2
            exact absurd h2 (by simp)
        · subst hxy
          rw [if_neg (lt_irrefl x), if_neg (lt_irrefl x)] at h1
          rcases lt_trichotomy x z with hxz | hxz | hxz
          · rw [if_pos hxz]
          · subst hxz
            rw [if_neg (lt_irrefl x), if_neg (lt_irrefl x)] at h2 ⊢
            exact ih ys zs h1 h2
          · rw [if_neg (lt_asymm hxz), if_pos hxz] at h2
            exact absurd h2 (by simp)
        · rw [if_neg (lt_asymm hxy), if_pos hxy] at h1
          exact absurd h1 (by simp)

instance : IsTotal (ℕ × Word) pairLe where
  total := by
    intro p q
    rcases lt_trichotomy p.1 q.1 with h | h | h
    · exact Or.inl (Or.inl h)
    · rcases wordLe_total p.2 q.2 with hw | hw
      · exact Or.inl (Or.inr ⟨h, hw⟩)
      · exact Or.inr (Or.inr ⟨h.symm, hw⟩)
    · exact Or.inr (Or.inl h)

instance : IsTrans (ℕ × Word) pairLe where
  trans := by
    intro p q r hpq hqr
    rcases hpq with h1 | ⟨h1, hw1⟩
    · rcases hqr with h2 | ⟨h2, _⟩
      · exact Or.inl (lt_trans h1 h2)
      · exact Or.inl (lt_of_lt_of_le h1 (le_of_eq h2))
    · rcases hqr with h2 | ⟨h2, hw2⟩
      · exact Or.inl (lt_of_le_of_lt (le_of_eq h1) h2)
      · exact Or.inr ⟨h1.trans h2, wordLe_trans _ _ _ hw1 hw2⟩

/-- Every pair of the sorted count list is a (count, word) pair of a
distinct corpus token. -/
theorem mem_sortedCounts (tokens : List Word) (p : ℕ × Word)
    (hp : p ∈ sortedCounts tokens) :
    p.1 = wordCount tokens p.2 ∧ p.2 ∈ tokens.dedup := by
  have h1 : p ∈ List.insertionSort pairLe (countPairs tokens) :=
    List.mem_reverse.mp hp
  have h2 : p ∈ countPairs tokens :=
    (List.perm_insertionSort pairLe (countPairs tokens)).mem_iff.mp h1
  obtain ⟨w, hw, hwp⟩ := List.mem_map.mp h2
  rw [← hwp]
  exact ⟨rfl, hw⟩

/-- After `sort` and `reverse`, consecutive pairs descend in the tuple
order. -/
theorem sortedCounts_pairwise (tokens : List Word) :
    List.Pairwise (fun p q : ℕ × Word => pairLe q p) (sortedCounts tokens) :=
  List.pairwise_reverse.mpr (List.sorted_insertionSort pairLe (countPairs tokens))

/-- The snd-projection of the count pairs is the distinct token list. -/
theorem countPairs_map_snd (tokens : List Word) :
    (countPairs tokens).map Prod.snd = tokens.dedup := by
  unfold countPairs
  rw [List.map_map]
  exact List.map_id _

/-- The sorted count list is a permutation of the count pairs. -/
theorem sortedCounts_perm (tokens : List Word) :
    (sortedCounts tokens).Perm (countPairs tokens) :=
  (List.reverse_perm _).trans (List.perm_insertionSort pairLe _)

/-- C5: the vocabulary built from the corpus counts has at most 1000
entries — exactly `min 1000 d` where `d` is the number of distinct
tokens — its entries are distinct corpus tokens, their frequencies are
non-increasing from index 0 (the most frequent token first), and every
distinct token left out has frequency at most that of every token kept:
the vocabulary is the 1000 highest-frequency distinct tokens. -/
theorem C5_vocabulary_topK (tokens : List Word) :
    (buildWords tokens).length ≤ 1000 ∧
    (buildWords tokens).length = min 1000 tokens.dedup.length ∧
    (buildWords tokens).Nodup ∧
    (∀ v ∈ buildWords tokens, v ∈ tokens) ∧
    List.Pairwise
      (fun a b => wordCount tokens b ≤ wordCount tokens a) (buildWords tokens) ∧
    (∀ w ∈ tokens, w ∉ buildWords tokens →
      ∀ v ∈ buildWords tokens, wordCount tokens w ≤ wordCount tokens v) := by
  have hsclen : (sortedCounts tokens).length = tokens.dedup.length := by
    rw [(sortedCounts_perm tokens).length_eq]
    simp [countPairs]
  have hlen : (buildWords tokens).length = min 1000 tokens.dedup.length := by
    rw [buildWords, List.length_map, List.length_take, hsclen]
  have hperm2 : ((sortedCounts tokens).map Prod.snd).Perm tokens.dedup := by
    rw [← countPairs_map_snd tokens]
    exact (sortedCounts_perm tokens).map Prod.snd
  have hsub : (buildWords tokens).Sublist ((sortedCounts tokens).map Prod.snd) :=
    List.Sublist.map Prod.snd (List.take_sublist 1000 _)
  refine ⟨hlen ▸ min_le_left _ _, hlen, ?_, ?_, ?_, ?_⟩
  · exact List.Nodup.sublist hsub (hperm2.nodup_iff.mpr (List.nodup_dedup tokens))
  · intro v hv
    obtain ⟨q, hq, hqv⟩ := List.mem_map.mp hv
    have hqsc : q ∈ sortedCounts tokens := (List.take_sublist 1000 _).subset hq
    exact hqv ▸ List.mem_dedup.mp (mem_sortedCounts tokens q hqsc).2
  · have hPWtake : List.Pairwise (fun p q : ℕ × Word => pairLe q p)
        ((sortedCounts tokens).take 1000) :=
      List.Pairwise.sublist (List.take_sublist 1000 _) (sortedCounts_pairwise tokens)
    rw [buildWords, List.pairwise_map]
    refine List.Pairwise.imp_of_mem ?_ hPWtake
    intro p q hp hq hrel
    have hpm := mem_sortedCounts tokens p ((List.take_sublist 1000 _).subset hp)
    have hqm := mem_sortedCounts tokens q ((List.take_sublist 1000 _).subset hq)
    have hle : q.1 ≤ p.1 := by
      rcases (show q.1 < p.1 ∨ (q.1 = p.1 ∧ wordLe q.2 p.2 = true) from hrel) with
        h | ⟨h, _⟩
      · exact le_of_lt h
      · exact le_of_eq h
    rw [← hpm.1, ← hqm.1]
    exact hle
  · intro w hw hnw v hv
    have hwd : w ∈ tokens.dedup := List.mem_dedup.mpr hw
    have hpair : (wordCount tokens w, w) ∈ countPairs tokens :=
      List.mem_map.mpr ⟨w, hwd, rfl⟩
    have hsc : (wordCount tokens w, w) ∈ sortedCounts tokens :=
      (sortedCounts_perm tokens).mem_iff.mpr hpair
    have hnotin : (wordCount tokens w, w) ∉ (sortedCounts tokens).take 1000 := by
      intro hmem
      exact hnw (List.mem_map.mpr ⟨_, hmem, rfl⟩)
    have hdrop : (wordCount tokens w, w) ∈ (sortedCounts tokens).drop 1000 := by
      rcases List.mem_append.mp
          (by rw [List.take_append_drop 1000 (sortedCounts tokens)]; exact hsc) with
        h | h
      · exact absurd h hnotin
      · exact h
    obtain ⟨q, hq, hqv⟩ := List.mem_map.mp hv
    have hPW := sortedCounts_pairwise tokens
    rw [← List.take_append_drop 1000 (sortedCounts tokens)] at hPW
    have hrel := (List.pairwise_append.mp hPW).2.2 q hq (wordCount tokens w, w) hdrop
    have hq1 : q.1 = wordCount tokens q.2 :=
      (mem_sortedCounts tokens q ((List.take_sublist 1000 _).subset hq)).1
    have hle : wordCount tokens w ≤ q.1 := by
      rcases (show (wordCount tokens w, w).1 < q.1 ∨
          ((wordCount tokens w, w).1 = q.1 ∧
            wordLe (wordCount tokens w, w).2 q.2 = true) from hrel) with h | ⟨h, _⟩
      · exact le_of_lt h
      · exact le_of_eq h
    rw [hq1, hqv] at hle
    exact hle
